import Mathlib

/-!
Shallow embedding of the n-gram feature augmenter from
`examples/text_classification/tutorial_imdb_fasttext.py`.

The Python function under verification:

```python
def augment_with_ngrams(unigrams, unigram_vocab_size, n_buckets, n=2):
    def get_ngrams(n):
        return list(zip(*[unigrams[i:] for i in range(n)]))
    def hash_ngram(ngram):
        bytes_ = array.array('L', ngram).tobytes()
        hash_ = int(hashlib.sha256(bytes_).hexdigest(), 16)
        return unigram_vocab_size + hash_ % n_buckets
    return unigrams + [hash_ngram(ngram) for i in range(2, n + 1) for ngram in get_ngrams(i)]
```

Machine-level facts of the reference platform (CPython on 64-bit Linux)
that the embedding fixes: `array.array('L')` has itemsize 8 and stores
each element as a little-endian unsigned 64-bit integer, raising
`OverflowError` for an element outside `[0, 2^64)`; `%` is floored
("Python") modulo, raising `ZeroDivisionError` for modulus 0;
`int(hexdigest, 16)` reads the 32 digest bytes big-endian.
-/

set_option maxRecDepth 100000

namespace ImdbFastText

/-- Python exceptions that `augment_with_ngrams` can raise. -/
inductive PyErr where
  | overflowError : PyErr
  | zeroDivisionError : PyErr
deriving DecidableEq, Repr

/-! ### SHA-256 (FIPS 180-4), executable over `Nat`

Bytes are `Nat`s below 256, 32-bit words are `Nat`s below `2^32`;
all word arithmetic is reduced `% 2^32`. -/

/-- Right rotation of a 32-bit word by `n` bits. -/
def rotr (n x : Nat) : Nat := (x / 2 ^ n + x % 2 ^ n * 2 ^ (32 - n)) % 2 ^ 32

/-- Logical right shift of a 32-bit word. -/
def shr (n x : Nat) : Nat := x / 2 ^ n

/-- Bitwise complement of a 32-bit word. -/
def bnot32 (x : Nat) : Nat := x ^^^ 0xffffffff

/-- SHA-256 `Ch` function. -/
def ch (e f g : Nat) : Nat := (e &&& f) ^^^ (bnot32 e &&& g)

/-- SHA-256 `Maj` function. -/
def maj (a b c : Nat) : Nat := (a &&& b) ^^^ (a &&& c) ^^^ (b &&& c)

/-- SHA-256 big sigma 0. -/
def bsig0 (x : Nat) : Nat := rotr 2 x ^^^ rotr 13 x ^^^ rotr 22 x

/-- SHA-256 big sigma 1. -/
def bsig1 (x : Nat) : Nat := rotr 6 x ^^^ rotr 11 x ^^^ rotr 25 x

/-- SHA-256 small sigma 0. -/
def ssig0 (x : Nat) : Nat := rotr 7 x ^^^ rotr 18 x ^^^ shr 3 x

/-- SHA-256 small sigma 1. -/
def ssig1 (x : Nat) : Nat := rotr 17 x ^^^ rotr 19 x ^^^ shr 10 x

/-- SHA-256 round constants (the 64 words of FIPS 180-4 §4.2.2, in decimal). -/
def sha256K : List Nat :=
  [1116352408, 1899447441, 3049323471, 3921009573, 961987163, 1508970993,
   2453635748, 2870763221, 3624381080, 310598401, 607225278, 1426881987,
   1925078388, 2162078206, 2614888103, 3248222580, 3835390401, 4022224774,
   264347078, 604807628, 770255983, 1249150122, 1555081692, 1996064986,
   2554220882, 2821834349, 2952996808, 3210313671, 3336571891, 3584528711,
   113926993, 338241895, 666307205, 773529912, 1294757372, 1396182291,
   1695183700, 1986661051, 2177026350, 2456956037, 2730485921, 2820302411,
   3259730800, 3345764771, 3516065817, 3600352804, 4094571909, 275423344,
   430227734, 506948616, 659060556, 883997877, 958139571, 1322822218,
   1537002063, 1747873779, 1955562222, 2024104815, 2227730452, 2361852424,
   2428436474, 2756734187, 3204031479, 3329325298]

/-- SHA-256 initial hash state (the eight words of FIPS 180-4 §5.3.3, in decimal). -/
def sha256H0 : List Nat :=
  [1779033703, 3144134277, 1013904242, 2773480762,
   1359893119, 2600822924, 528734635, 1541459225]

/-- Big-endian 8-byte encoding of a natural number (used for the length field). -/
def be64 (n : Nat) : List Nat := (List.range 8).map (fun i => n / 256 ^ (7 - i) % 256)

/-- SHA-256 padding: append `0x80`, zero bytes to 56 mod 64, then the bit length big-endian. -/
def sha256pad (msg : List Nat) : List Nat :=
  msg ++ [0x80] ++ List.replicate ((119 - msg.length % 64) % 64) 0 ++ be64 (8 * msg.length)

/-- Split a (padded) message into its 64-byte blocks. -/
def toBlocks (l : List Nat) : List (List Nat) :=
  (List.range (l.length / 64)).map (fun i => (l.drop (64 * i)).take 64)

/-- Read four bytes as a big-endian 32-bit word. -/
def beWord (bs : List Nat) : Nat :=
  bs.foldl (fun acc b => acc * 256 + b) 0

/-- SHA-256 message schedule: 64 words from a 64-byte block. -/
def sha256schedule (block : List Nat) : List Nat :=
  let w0 := (List.range 16).map (fun i => beWord ((block.drop (4 * i)).take 4))
  (List.range 48).foldl
    (fun w t =>
      w ++ [(ssig1 (w.getD (t + 14) 0) + w.getD (t + 9) 0 + ssig0 (w.getD (t + 1) 0) + w.getD t 0) % 2 ^ 32])
    w0

/-- One SHA-256 compression step over the 8-word working state. -/
def sha256round (k w : Nat) (st : List Nat) : List Nat :=
  match st with
  | [a, b, c, d, e, f, g, h] =>
    let t1 := (h + bsig1 e + ch e f g + k + w) % 2 ^ 32
    let t2 := (bsig0 a + maj a b c) % 2 ^ 32
    [(t1 + t2) % 2 ^ 32, a, b, c, (d + t1) % 2 ^ 32, e, f, g]
  | other => other

/-- SHA-256 compression of one 64-byte block into the running hash state. -/
def sha256compress (hs : List Nat) (block : List Nat) : List Nat :=
  let w := sha256schedule block
  let st := (List.range 64).foldl (fun st t => sha256round (sha256K.getD t 0) (w.getD t 0) st) hs
  List.zipWith (fun x y => (x + y) % 2 ^ 32) hs st

/-- SHA-256 digest of a byte list, read as a big-endian natural number
(this is Python's `int(hashlib.sha256(bytes_).hexdigest(), 16)`). -/
def sha256Nat (msg : List Nat) : Nat :=
  ((toBlocks (sha256pad msg)).foldl sha256compress sha256H0).foldl (fun acc w => acc * 2 ^ 32 + w) 0

/-! ### The augmenter -/

/-- Serialization of a single Python int by `array.array('L', [x]).tobytes()`:
eight little-endian bytes, `OverflowError` (`none`) outside `[0, 2^64)`. -/
def u64le (x : Int) : Option (List Nat) :=
  if 0 ≤ x ∧ x < 2 ^ 64 then some ((List.range 8).map (fun i => x.toNat / 256 ^ i % 256)) else none

/-- Serialization of a tuple by `array.array('L', ngram).tobytes()`:
concatenated 8-byte little-endian encodings, `OverflowError` (`none`)
if any element is outside `[0, 2^64)`. -/
def toBytesL : List Int → Option (List Nat)
  | [] => some []
  | x :: xs =>
    match u64le x, toBytesL xs with
    | some b, some bs => some (b ++ bs)
    | _, _ => none

/-- Python's `zip(*lists)` on a list of lists: tuples of components up to the
length of the shortest list; `zip()` of no lists is empty. -/
def zipStar (ls : List (List Int)) : List (List Int) :=
  match ls.map List.length with
  | [] => []
  | n :: ns => (List.range (ns.foldl Nat.min n)).map (fun j => ls.map (fun l => l.getD j 0))

/-- The source's `get_ngrams(n) = list(zip(*[unigrams[i:] for i in range(n)]))`. -/
def get_ngrams (unigrams : List Int) (n : Nat) : List (List Int) :=
  zipStar ((List.range n).map (fun i => unigrams.drop i))

/-- The source's `hash_ngram(ngram)`: serialize with `array('L')`, SHA-256, floored modulo
`n_buckets` (Python `%`), shifted by `unigram_vocab_size`. Raises
`OverflowError` from the serialization and `ZeroDivisionError` from `% 0`. -/
def hash_ngram (unigram_vocab_size n_buckets : Int) (ngram : List Int) : Except PyErr Int :=
  match toBytesL ngram with
  | none => .error .overflowError
  | some bytes_ =>
    if n_buckets = 0 then .error .zeroDivisionError
    else .ok (unigram_vocab_size + Int.fmod (Int.ofNat (sha256Nat bytes_)) n_buckets)

/-- Python's `range(a, b)` on ints. -/
def rangeInt (a b : Int) : List Int := (List.range (b - a).toNat).map (fun k : Nat => a + k)

/-- A Python list comprehension `[f(x) for x in l]` where `f` may raise:
elements are evaluated left to right and the first exception propagates. -/
def mapPyList (f : α → Except PyErr β) : List α → Except PyErr (List β)
  | [] => .ok []
  | a :: l =>
    match f a with
    | .error e => .error e
    | .ok b =>
      match mapPyList f l with
      | .error e => .error e
      | .ok bs => .ok (b :: bs)

/-- The source's `augment_with_ngrams(unigrams, unigram_vocab_size, n_buckets, n)`:
the unigrams followed by the hashed n-grams for each length `i` in
`range(2, n + 1)` in order. -/
def augment_with_ngrams (unigrams : List Int) (unigram_vocab_size n_buckets : Int)
    (n : Int) : Except PyErr (List Int) :=
  match mapPyList (hash_ngram unigram_vocab_size n_buckets)
      ((rangeInt 2 (n + 1)).flatMap (fun i => get_ngrams unigrams i.toNat)) with
  | .error e => .error e
  | .ok hashed => .ok (unigrams ++ hashed)

/-! ### Spec-side notions used in the theorem statements -/

/-- The input contract from the spec: non-negative tokens, positive
vocabulary size and bucket count, n-gram order at least 1. -/
def ValidInput (sequence : List Int) (vocab_size n_buckets max_n : Int) : Prop :=
  (∀ x ∈ sequence, 0 ≤ x) ∧ 0 < vocab_size ∧ 0 < n_buckets ∧ 1 ≤ max_n

instance (s : List Int) (V B N : Int) : Decidable (ValidInput s V B N) := by
  unfold ValidInput; infer_instance

/-- The value `hash_ngram` computes when it does not raise: the window's
fixed-width byte serialization, hashed with SHA-256, reduced modulo
`n_buckets` and shifted by `vocab_size`. Total by construction; the
theorems relate it to `hash_ngram` on its non-raising domain. -/
def featureId (vocab_size n_buckets : Int) (w : List Int) : Int :=
  vocab_size +
    Int.fmod (Int.ofNat (sha256Nat (w.flatMap (fun x => (List.range 8).map (fun i => x.toNat / 256 ^ i % 256)))))
      n_buckets

/-- The spec's extra-length formula: `sum(max(0, len - n + 1) for n in 2..N)`. -/
def specExtraLen (len : Nat) (max_n : Int) : Int :=
  ((rangeInt 2 (max_n + 1)).map (fun n => max 0 ((len : Int) - n + 1))).sum

/-- The length of `augment_with_ngrams`' result, when it does not raise. -/
def augmentLength (sequence : List Int) (vocab_size n_buckets max_n : Int) : Except PyErr Int :=
  (augment_with_ngrams sequence vocab_size n_buckets max_n).map (fun out => (out.length : Int))

instance : DecidableEq PyErr := fun a b => by
  cases a <;> cases b <;> first
    | exact .isTrue rfl
    | exact .isFalse (by intro h; cases h)

instance {ε α : Type} [DecidableEq ε] [DecidableEq α] : DecidableEq (Except ε α) := fun a b =>
  match a, b with
  | .ok x, .ok y =>
    if h : x = y then .isTrue (by rw [h]) else .isFalse (fun hxy => h (by cases hxy; rfl))
  | .error e, .error f =>
    if h : e = f then .isTrue (by rw [h]) else .isFalse (fun hxy => h (by cases hxy; rfl))
  | .ok _, .error _ => .isFalse (fun hxy => by cases hxy)
  | .error _, .ok _ => .isFalse (fun hxy => by cases hxy)

/-! ### Helper lemmas -/

theorem mem_rangeInt {a b i : Int} (h : i ∈ rangeInt a b) : a ≤ i ∧ i < b := by
  unfold rangeInt at h
  rcases List.mem_map.mp h with ⟨k, hk, rfl⟩
  rw [List.mem_range] at hk
  omega

theorem foldl_min_sub (a : Nat) : ∀ m : Nat,
    ((List.range m).map (fun i => a - (i + 1))).foldl Nat.min a = a - m := by
  intro m
  induction m with
  | zero => rfl
  | succ m ih =>
    rw [List.range_succ, List.map_append, List.foldl_append, ih]
    simp only [List.map_cons, List.map_nil, List.foldl_cons, List.foldl_nil]
    show min (a - m) (a - (m + 1)) = a - (m + 1)
    omega

theorem zipStar_eq (ls : List (List Int)) (n : Nat) (ns : List Nat)
    (h : ls.map List.length = n :: ns) :
    zipStar ls = (List.range (ns.foldl Nat.min n)).map (fun j => ls.map (fun l => l.getD j 0)) := by
  unfold zipStar
  rw [h]

theorem take_drop_eq_map_range (u : List Int) (j k : Nat) (h : j + k ≤ u.length) :
    (u.drop j).take k = (List.range k).map (fun i => u.getD (j + i) 0) := by
  apply List.ext_getElem
  · simp only [List.length_take, List.length_drop, List.length_map, List.length_range]
    omega
  · intro i h₁ h₂
    simp only [List.length_take, List.length_drop] at h₁
    simp only [List.getElem_take, List.getElem_drop, List.getElem_map, List.getElem_range]
    rw [List.getD_eq_getElem?_getD, List.getElem?_eq_getElem (by omega), Option.getD_some]

theorem get_ngrams_succ (u : List Int) (m : Nat) :
    get_ngrams u (m + 1) = (List.range (u.length - m)).map (fun j => (u.drop j).take (m + 1)) := by
  have h1 : ((List.range (m + 1)).map (fun i => u.drop i)).map List.length
      = u.length :: (List.range m).map (fun i => u.length - (i + 1)) := by
    rw [List.map_map, List.range_succ_eq_map, List.map_cons, List.map_map]
    simp [Function.comp_def]
  rw [get_ngrams, zipStar_eq _ _ _ h1, foldl_min_sub]
  apply List.map_congr_left
  intro j hj
  rw [List.mem_range] at hj
  rw [List.map_map, take_drop_eq_map_range u j (m + 1) (by omega)]
  apply List.map_congr_left
  intro i hi
  rw [List.mem_range] at hi
  simp only [Function.comp_apply]
  rw [List.getD_eq_getElem?_getD, List.getD_eq_getElem?_getD, List.getElem?_drop,
    Nat.add_comm i j]

theorem u64le_of_mem {x : Int} (h : 0 ≤ x ∧ x < 2 ^ 64) :
    u64le x = some ((List.range 8).map (fun i => x.toNat / 256 ^ i % 256)) := by
  unfold u64le
  rw [if_pos h]

theorem u64le_some {x : Int} {b : List Nat} (h : u64le x = some b) :
    b = (List.range 8).map (fun i => x.toNat / 256 ^ i % 256) := by
  unfold u64le at h
  split at h
  · exact (Option.some.inj h).symm
  · exact absurd h (by simp)

theorem toBytesL_some_eq {w : List Int} {bs : List Nat} (h : toBytesL w = some bs) :
    bs = w.flatMap (fun x => (List.range 8).map (fun i => x.toNat / 256 ^ i % 256)) := by
  induction w generalizing bs with
  | nil =>
    rw [toBytesL] at h
    simp only [Option.some.injEq] at h
    simp [← h]
  | cons x xs ih =>
    rw [toBytesL] at h
    cases hx : u64le x <;> rw [hx] at h
    · exact absurd h (by simp)
    · cases hxs : toBytesL xs <;> rw [hxs] at h
      · exact absurd h (by simp)
      · simp only [Option.some.injEq] at h
        rw [← h, List.flatMap_cons, u64le_some hx, ih hxs]

theorem toBytesL_of_mem {w : List Int} (h : ∀ x ∈ w, 0 ≤ x ∧ x < 2 ^ 64) :
    toBytesL w = some (w.flatMap (fun x => (List.range 8).map (fun i => x.toNat / 256 ^ i % 256))) := by
  induction w with
  | nil => rfl
  | cons x xs ih =>
    rw [toBytesL, u64le_of_mem (h x (by simp)), ih (fun y hy => h y (by simp [hy]))]
    rw [List.flatMap_cons]

theorem flatMap_bytes_length (w : List Int) :
    (w.flatMap (fun x => (List.range 8).map (fun i => x.toNat / 256 ^ i % 256))).length
      = 8 * w.length := by
  induction w with
  | nil => rfl
  | cons x xs ih =>
    rw [List.flatMap_cons, List.length_append, ih]
    simp only [List.length_map, List.length_range, List.length_cons]
    ring

theorem toBytesL_length {w : List Int} {bs : List Nat} (h : toBytesL w = some bs) :
    bs.length = 8 * w.length := by
  rw [toBytesL_some_eq h]
  exact flatMap_bytes_length w

theorem hash_ngram_eq_featureId (V B : Int) (w : List Int) (hB : B ≠ 0)
    (h : ∀ x ∈ w, 0 ≤ x ∧ x < 2 ^ 64) :
    hash_ngram V B w = .ok (featureId V B w) := by
  rw [hash_ngram, toBytesL_of_mem h, featureId]
  simp only [if_neg hB]

theorem hash_ngram_ok_inv {V B : Int} {w : List Int} {y : Int}
    (h : hash_ngram V B w = .ok y) :
    B ≠ 0 ∧ ∃ bs, toBytesL w = some bs ∧ y = V + Int.fmod (Int.ofNat (sha256Nat bs)) B := by
  rw [hash_ngram] at h
  split at h
  · exact absurd h (by simp)
  · rename_i bs hbs
    split at h
    · exact absurd h (by simp)
    · rename_i hB
      exact ⟨hB, bs, hbs, (Except.ok.inj h).symm⟩

theorem hash_ngram_ok_featureId {V B : Int} {w : List Int} {y : Int}
    (h : hash_ngram V B w = .ok y) : y = featureId V B w := by
  obtain ⟨hB, bs, hbs, hy⟩ := hash_ngram_ok_inv h
  rw [hy, featureId, ← toBytesL_some_eq hbs]

theorem mapPyList_eq_map {α β : Type} (f : α → Except PyErr β) (g : α → β) (l : List α)
    (h : ∀ a ∈ l, f a = .ok (g a)) :
    mapPyList f l = .ok (l.map g) := by
  induction l with
  | nil => rfl
  | cons a l ih =>
    rw [mapPyList, h a (by simp), ih (fun b hb => h b (by simp [hb]))]
    rfl

theorem mapPyList_ok_eq_map {α β : Type} {f : α → Except PyErr β} {g : α → β} {l : List α}
    {r : List β} (h : mapPyList f l = .ok r) (hg : ∀ a b, f a = .ok b → b = g a) :
    r = l.map g := by
  induction l generalizing r with
  | nil =>
    rw [mapPyList] at h
    simp only [Except.ok.injEq] at h
    simp [← h]
  | cons a l ih =>
    rw [mapPyList] at h
    cases ha : f a <;> rw [ha] at h
    · exact absurd h (by simp)
    · cases hl : mapPyList f l <;> rw [hl] at h
      · exact absurd h (by simp)
      · simp only [Except.ok.injEq] at h
        rw [← h, List.map_cons, hg a _ ha, ih hl]

theorem flatMap_get_ngrams_eq (s : List Int) (N : Int) :
    (rangeInt 2 (N + 1)).flatMap (fun i => get_ngrams s i.toNat)
      = (rangeInt 2 (N + 1)).flatMap (fun i =>
          (List.range (s.length + 1 - i.toNat)).map (fun j => (s.drop j).take i.toNat)) := by
  rw [List.flatMap_def, List.flatMap_def]
  congr 1
  apply List.map_congr_left
  intro i hi
  have h2 : 2 ≤ i := (mem_rangeInt hi).1
  obtain ⟨m, hm⟩ : ∃ m, i.toNat = m + 1 := ⟨i.toNat - 1, by omega⟩
  rw [hm, get_ngrams_succ]
  have hc : s.length - m = s.length + 1 - (m + 1) := by omega
  rw [hc]

theorem mem_flatMap_windows {s w : List Int} {N : Int}
    (hw : w ∈ (rangeInt 2 (N + 1)).flatMap (fun i => get_ngrams s i.toNat)) :
    ∀ x ∈ w, x ∈ s := by
  rw [flatMap_get_ngrams_eq] at hw
  rw [List.mem_flatMap] at hw
  obtain ⟨i, _, hw⟩ := hw
  rcases List.mem_map.mp hw with ⟨j, _, rfl⟩
  intro x hx
  exact List.mem_of_mem_drop (List.mem_of_mem_take hx)

theorem augment_ok_struct {s : List Int} {V B N : Int} {out : List Int}
    (hout : augment_with_ngrams s V B N = .ok out) :
    out = s ++ (rangeInt 2 (N + 1)).flatMap (fun i =>
      (List.range (s.length + 1 - i.toNat)).map (fun j => featureId V B ((s.drop j).take i.toNat))) := by
  rw [augment_with_ngrams] at hout
  split at hout
  · exact absurd hout (by simp)
  · rename_i hashed hmap
    have hh : hashed = ((rangeInt 2 (N + 1)).flatMap (fun i => get_ngrams s i.toNat)).map
        (featureId V B) :=
      mapPyList_ok_eq_map hmap (fun a b hab => hash_ngram_ok_featureId hab)
    rw [← Except.ok.inj hout, hh, flatMap_get_ngrams_eq, List.map_flatMap]
    simp only [List.map_map, Function.comp_def]

theorem augment_succeeds {s : List Int} {V B N : Int} (hB : B ≠ 0)
    (h : ∀ x ∈ s, 0 ≤ x ∧ x < 2 ^ 64) :
    augment_with_ngrams s V B N = .ok (s ++ (rangeInt 2 (N + 1)).flatMap (fun i =>
      (List.range (s.length + 1 - i.toNat)).map (fun j => featureId V B ((s.drop j).take i.toNat)))) := by
  have hmap : mapPyList (hash_ngram V B)
      ((rangeInt 2 (N + 1)).flatMap (fun i => get_ngrams s i.toNat))
      = .ok (((rangeInt 2 (N + 1)).flatMap (fun i => get_ngrams s i.toNat)).map (featureId V B)) :=
    mapPyList_eq_map _ _ _ (fun w hw =>
      hash_ngram_eq_featureId V B w hB (fun x hx => h x (mem_flatMap_windows hw x hx)))
  rw [augment_with_ngrams, hmap, flatMap_get_ngrams_eq, List.map_flatMap]
  simp only [List.map_map, Function.comp_def]

theorem specExtraLen_eq (len : Nat) (N : Int) :
    specExtraLen len N = (((rangeInt 2 (N + 1)).map (fun i => len + 1 - i.toNat)).sum : Nat) := by
  rw [specExtraLen, Nat.cast_list_sum, List.map_map]
  congr 1
  apply List.map_congr_left
  intro n hn
  have h2 : 2 ≤ n := (mem_rangeInt hn).1
  simp only [Function.comp_apply]
  omega

theorem augment_ok_length {s : List Int} {V B N : Int} {out : List Int}
    (hout : augment_with_ngrams s V B N = .ok out) :
    (out.length : Int) = s.length + specExtraLen s.length N := by
  rw [augment_ok_struct hout, List.length_append, List.length_flatMap]
  have hmap : (List.map (List.length ∘ fun i : Int =>
      (List.range (s.length + 1 - i.toNat)).map (fun j => featureId V B ((s.drop j).take i.toNat)))
      (rangeInt 2 (N + 1)))
      = (rangeInt 2 (N + 1)).map (fun i => s.length + 1 - i.toNat) := by
    apply List.map_congr_left
    intro i _
    simp only [Function.comp_apply, List.length_map, List.length_range]
  rw [hmap, specExtraLen_eq]
  push_cast
  ring

theorem featureId_mem_range (V B : Int) (hB : 0 < B) (w : List Int) :
    V ≤ featureId V B w ∧ featureId V B w < V + B := by
  rw [featureId]
  have h1 := Int.fmod_nonneg' (Int.ofNat (sha256Nat
    (w.flatMap (fun x => (List.range 8).map (fun i => x.toNat / 256 ^ i % 256))))) hB
  have h2 := Int.fmod_lt_of_pos (Int.ofNat (sha256Nat
    (w.flatMap (fun x => (List.range 8).map (fun i => x.toNat / 256 ^ i % 256))))) hB
  omega

/-! ### The claims -/

/-- C1, amended: for valid inputs all of whose tokens also fit the
serializer's unsigned 64-bit range, `augment_with_ngrams` returns, and the
length of its result is the input length plus
`sum(max(0, len - n + 1) for n in 2..max_n)`. (As literally stated over all
valid inputs the claim fails: see the counterexample with a token `2^64`.) -/
theorem augment_length_law (s : List Int) (V B N : Int) (hvalid : ValidInput s V B N)
    (hfit : ∀ x ∈ s, x < 2 ^ 64) :
    augmentLength s V B N = .ok ((s.length : Int) + specExtraLen s.length N) := by
  obtain ⟨hnn, _, hB, _⟩ := hvalid
  have hs := augment_succeeds (s := s) (V := V) (N := N)
    (by omega : B ≠ 0) (fun x hx => ⟨hnn x hx, hfit x hx⟩)
  rw [augmentLength, hs]
  simp only [Except.map]
  exact congrArg Except.ok (augment_ok_length hs)

/-- Witness for C1's amended theorem at `seq = [1,2,3]`, `V = 10`, `B = 100`,
`N = 2`: the call returns and the length is `3 + 2 = 5`. -/
theorem augment_length_law_witness :
    augmentLength [1, 2, 3] 10 100 2 = .ok ((3 : Int) + specExtraLen 3 2) :=
  augment_length_law [1, 2, 3] 10 100 2 (by decide) (by decide)

/-- C1 as stated is false: `[2^64, 0]` is a valid input (both tokens are
non-negative, and `V = B = 1 > 0`, `N = 2 ≥ 1`), yet the call raises
`OverflowError` from `array.array('L', ...)` instead of returning a sequence
of the stated length. -/
theorem augment_length_law_cex :
    ValidInput [2 ^ 64, 0] 1 1 2 ∧
    augment_with_ngrams [2 ^ 64, 0] 1 1 2 = .error .overflowError :=
  ⟨by decide, by rfl⟩

/-- C2 as stated is false: `augment([-1], 10, 100, 2)` and
`augment([1], 0, 100, 2)` both succeed (returning the input unchanged)
instead of failing with `InvalidArgument`. -/
theorem augment_no_validation_cex :
    augment_with_ngrams [-1] 10 100 2 = .ok [-1] ∧
    augment_with_ngrams [1] 0 100 2 = .ok [1] :=
  ⟨rfl, rfl⟩

/-- C2, amended: `augment_with_ngrams` performs no eager argument validation.
Negative tokens, `vocab_size <= 0`, `n_buckets < 0` and `max_n < 1` are
accepted whenever no hashing is attempted on a bad value; errors surface
lazily during hashing: a window containing a token outside `[0, 2^64)`
raises `OverflowError` at serialization, and `n_buckets = 0` raises
`ZeroDivisionError` at the first hashed window. -/
theorem augment_lazy_errors :
    augment_with_ngrams [-1] 10 100 2 = .ok [-1] ∧
    augment_with_ngrams [1] 0 100 2 = .ok [1] ∧
    augment_with_ngrams [1, 2] 10 100 0 = .ok [1, 2] ∧
    augment_with_ngrams [-1, 0] 10 100 2 = .error .overflowError ∧
    augment_with_ngrams [1, 2] 10 0 2 = .error .zeroDivisionError ∧
    augment_with_ngrams [1, 2] 10 (-7) 2 = .ok [1, 2, 9] :=
  ⟨rfl, rfl, rfl, rfl, rfl, rfl⟩

/-- C3: for every window whose tokens fit the serializer and positive
`n_buckets`, the feature ID is computed by serializing the tuple into
fixed-width (8 bytes per token) order-preserving bytes, hashing with
SHA-256, reducing the digest to an unsigned integer, taking it modulo
`n_buckets` and adding `vocab_size`; the result (`featureId`) depends only
on the window tuple, never on its position or the surrounding sequence. -/
theorem hash_ngram_pipeline (V B : Int) (w : List Int)
    (hw : ∀ x ∈ w, 0 ≤ x ∧ x < 2 ^ 64) (hB : 0 < B) :
    hash_ngram V B w =
      .ok (V + Int.fmod (Int.ofNat (sha256Nat
        (w.flatMap (fun x => (List.range 8).map (fun i => x.toNat / 256 ^ i % 256))))) B) ∧
    hash_ngram V B w = .ok (featureId V B w) ∧
    (∀ (s₁ s₂ : List Int) (i₁ i₂ n : Nat),
      (s₁.drop i₁).take n = w → (s₂.drop i₂).take n = w →
      hash_ngram V B ((s₁.drop i₁).take n) = hash_ngram V B ((s₂.drop i₂).take n)) := by
  have h1 := hash_ngram_eq_featureId V B w (by omega) hw
  refine ⟨?_, h1, fun s₁ s₂ i₁ i₂ n h₂ h₃ => by rw [h₂, h₃]⟩
  rw [h1, featureId]

/-- Witness for C3 at the window `(1, 2)` with `V = 10`, `B = 100`. -/
theorem hash_ngram_pipeline_witness :
    hash_ngram 10 100 [1, 2] = .ok (featureId 10 100 [1, 2]) :=
  (hash_ngram_pipeline 10 100 [1, 2] (by decide) (by decide)).2.1

/-- C4: whenever `augment_with_ngrams` returns, the first `len(seq)` elements
of the output are the input sequence unchanged (the output is the original
sequence followed by the hashed n-gram IDs). -/
theorem augment_preserves_input (s : List Int) (V B N : Int) (out : List Int)
    (hout : augment_with_ngrams s V B N = .ok out) :
    out.take s.length = s := by
  rw [augment_ok_struct hout]
  exact List.take_left s _

/-- Witness for C4 at `seq = [1,2]`, `V = 10`, `B = 100`, `N = 2`, whose
output is `[1, 2, 31]`. -/
theorem augment_preserves_input_witness :
    ([1, 2, 31] : List Int).take 2 = [1, 2] :=
  augment_preserves_input [1, 2] 10 100 2 [1, 2, 31] (by rfl)

/-- C5: whenever `augment_with_ngrams` returns, every appended hashed
feature ID lies in `[V, V + B)`, and under the input contract (tokens in
`[0, V)`) every element of the output lies in `[0, V + B)`. -/
theorem augment_range_law (s : List Int) (V B N : Int) (out : List Int)
    (hV : 0 < V) (hB : 0 < B) (hs : ∀ x ∈ s, 0 ≤ x ∧ x < V)
    (hout : augment_with_ngrams s V B N = .ok out) :
    (∀ x ∈ out.drop s.length, V ≤ x ∧ x < V + B) ∧ (∀ x ∈ out, 0 ≤ x ∧ x < V + B) := by
  have hstruct := augment_ok_struct hout
  have hfeat : ∀ x ∈ (rangeInt 2 (N + 1)).flatMap (fun i =>
      (List.range (s.length + 1 - i.toNat)).map (fun j => featureId V B ((s.drop j).take i.toNat))),
      V ≤ x ∧ x < V + B := by
    intro x hx
    rw [List.mem_flatMap] at hx
    obtain ⟨i, _, hx⟩ := hx
    rcases List.mem_map.mp hx with ⟨j, _, rfl⟩
    exact featureId_mem_range V B hB _
  constructor
  · rw [hstruct, List.drop_left]
    exact hfeat
  · intro x hx
    rw [hstruct, List.mem_append] at hx
    rcases hx with hx | hx
    · have := hs x hx
      omega
    · have := hfeat x hx
      omega

/-- Witness for C5: in the output `[1, 2, 31]` of `augment([1,2], 10, 100, 2)`
the hashed ID 31 lies in `[10, 110)`. -/
theorem augment_range_law_witness :
    (10 : Int) ≤ 31 ∧ (31 : Int) < 10 + 100 := by
  have h := augment_range_law [1, 2] 10 100 2 [1, 2, 31]
    (by decide) (by decide) (by decide) (by rfl)
  exact h.1 31 (by decide)

/-- C6: whenever `augment_with_ngrams` returns, the output is the input
followed by the hashed feature IDs of all windows, grouped by n-gram length
`i` ascending (`rangeInt 2 (N+1)` enumerates `2, 3, ..., N` in increasing
order), and within each length by window start position `j` ascending
(`List.range` enumerates `0, 1, ...` in increasing order) — i.e. in the
left-to-right window order of the input. -/
theorem augment_ngram_order (s : List Int) (V B N : Int) (out : List Int)
    (hout : augment_with_ngrams s V B N = .ok out) :
    out = s ++ (rangeInt 2 (N + 1)).flatMap (fun i =>
      (List.range (s.length + 1 - i.toNat)).map (fun j => featureId V B ((s.drop j).take i.toNat))) :=
  augment_ok_struct hout

/-- Witness for C6 at `seq = [1,2]`, `V = 10`, `B = 100`, `N = 2`. -/
theorem augment_ngram_order_witness :
    ([1, 2, 31] : List Int) = [1, 2] ++ (rangeInt 2 3).flatMap (fun i =>
      (List.range (2 + 1 - i.toNat)).map (fun j =>
        featureId 10 100 ((([1, 2] : List Int).drop j).take i.toNat))) :=
  augment_ngram_order [1, 2] 10 100 2 [1, 2, 31] (by rfl)

/-- C7: `augment_with_ngrams` is deterministic — it is a pure function of
its four arguments (the embedding has no other state), so two calls on
identical valid arguments yield identical results, and any two successful
outcomes of the same call are equal. -/
theorem augment_deterministic (s : List Int) (V B N : Int) (_h : ValidInput s V B N) :
    augment_with_ngrams s V B N = augment_with_ngrams s V B N ∧
    ∀ out₁ out₂, augment_with_ngrams s V B N = .ok out₁ →
      augment_with_ngrams s V B N = .ok out₂ → out₁ = out₂ := by
  exact ⟨rfl, fun o₁ o₂ h₁ h₂ => Except.ok.inj (h₁.symm.trans h₂)⟩

/-- Witness for C7 at `seq = [1]`, `V = 10`, `B = 100`, `N = 2`. -/
theorem augment_deterministic_witness :
    augment_with_ngrams [1] 10 100 2 = augment_with_ngrams [1] 10 100 2 :=
  (augment_deterministic [1] 10 100 2 (by decide)).1

/-- C8: for every valid configuration, the empty sequence is returned
unchanged (for any `N`), and a one-token sequence is returned unchanged for
`N = 2` since no 2-gram window fits. -/
theorem augment_empty_short (V B N : Int) (_hV : 0 < V) (_hB : 0 < B) (_hN : 1 ≤ N) :
    augment_with_ngrams [] V B N = .ok [] ∧ augment_with_ngrams [5] V B 2 = .ok [5] := by
  constructor
  · have hng : (rangeInt 2 (N + 1)).flatMap (fun i => get_ngrams ([] : List Int) i.toNat) = [] := by
      rw [flatMap_get_ngrams_eq]
      rw [List.flatMap_eq_nil_iff]
      intro i hi
      have h2 : 2 ≤ i := (mem_rangeInt hi).1
      have hz : ([] : List Int).length + 1 - i.toNat = 0 := by
        simp only [List.length_nil]
        omega
      rw [hz]
      rfl
    rw [augment_with_ngrams, hng]
    rfl
  · rfl

/-- Witness for C8 at `V = 10`, `B = 100`, `N = 2`. -/
theorem augment_empty_short_witness :
    augment_with_ngrams [] 10 100 2 = .ok [] ∧ augment_with_ngrams [5] 10 100 2 = .ok [5] :=
  augment_empty_short 10 100 2 (by decide) (by decide) (by decide)

/-- C9 as stated is false: `[3,2,1]` is a permutation of the valid,
repetition-free input `[1,2,3]`, whose windows `[1,2]` and `[2,3]` are not
all equal, yet with `n_buckets = 1` both sequences produce the same hashed
feature IDs (`[10, 10]`): bucket collisions can cancel order-sensitivity. -/
theorem order_sensitivity_cex :
    ValidInput [1, 2, 3] 10 1 2 ∧
    List.Perm [3, 2, 1] ([1, 2, 3] : List Int) ∧
    ([1, 2, 3] : List Int).Nodup ∧
    get_ngrams [1, 2, 3] 2 = [[1, 2], [2, 3]] ∧
    ([1, 2] : List Int) ≠ [2, 3] ∧
    augment_with_ngrams [1, 2, 3] 10 1 2 = .ok [1, 2, 3, 10, 10] ∧
    augment_with_ngrams [3, 2, 1] 10 1 2 = .ok [3, 2, 1, 10, 10] ∧
    ([1, 2, 3, 10, 10] : List Int).drop 3 = ([3, 2, 1, 10, 10] : List Int).drop 3 :=
  ⟨by decide, by decide, by decide, by rfl, by decide, by rfl, by rfl, by rfl⟩

/-- C9, amended: the hashed features depend on token order inside each
window — there exist valid repetition-free inputs where a permutation
changes the hashed feature set (here `[1,2]` vs `[2,1]` with a realistic
bucket count) — but the change is not guaranteed for every permutation,
since hash collisions modulo `n_buckets` can make the sets coincide. -/
theorem order_sensitivity_amended :
    augment_with_ngrams [1, 2] 10 1000000 2 = .ok [1, 2, 643131] ∧
    augment_with_ngrams [2, 1] 10 1000000 2 = .ok [2, 1, 983234] ∧
    (643131 : Int) ≠ 983234 :=
  ⟨rfl, rfl, by decide⟩

/-- C10: every token of a window is serialized to exactly 8 bytes (the item
size of `array('L')` on the reference platform), so a window of length `n`
serializes to `8 * n` bytes, and two windows of different lengths always
serialize to byte strings of different lengths — they can never collide at
the serialization stage. -/
theorem serialization_fixed_width :
    (∀ (w : List Int) (bs : List Nat), toBytesL w = some bs → bs.length = 8 * w.length) ∧
    (∀ (w₁ w₂ : List Int) (b₁ b₂ : List Nat), toBytesL w₁ = some b₁ → toBytesL w₂ = some b₂ →
      w₁.length ≠ w₂.length → b₁ ≠ b₂) := by
  refine ⟨fun w bs h => toBytesL_length h, fun w₁ w₂ b₁ b₂ h₁ h₂ hne heq => hne ?_⟩
  have hlen := congrArg List.length heq
  rw [toBytesL_length h₁, toBytesL_length h₂] at hlen
  omega

/-- Witness for C10 at the windows `[1]` and `[1, 2]`: 8 bytes versus 16. -/
theorem serialization_fixed_width_witness :
    ([1, 0, 0, 0, 0, 0, 0, 0] : List Nat).length = 8 * ([1] : List Int).length ∧
    ([1, 0, 0, 0, 0, 0, 0, 0] : List Nat) ≠ [1, 0, 0, 0, 0, 0, 0, 0, 2, 0, 0, 0, 0, 0, 0, 0] :=
  ⟨serialization_fixed_width.1 [1] [1, 0, 0, 0, 0, 0, 0, 0] (by rfl),
   serialization_fixed_width.2 [1] [1, 2] [1, 0, 0, 0, 0, 0, 0, 0]
     [1, 0, 0, 0, 0, 0, 0, 0, 2, 0, 0, 0, 0, 0, 0, 0] (by rfl) (by rfl) (by decide)⟩

end ImdbFastText
